import Mathlib

/-!
Verification of the Tractatus navigation system against its specification.

The definitions below are shallow embeddings of the Python source:

* `findParentLongest` / `scanLen` embed `_find_parent_by_longest_prefix`
  from `tractatus_orm/ingest.py` (names are modelled as `List Char`,
  mirroring Python string slicing `name[0:length]` with `List.take`).
* `pmGet` / `calcLevelFuel` embed `_calculate_level` from
  `tractatus_orm/ingest.py`; the unbounded Python `while` loop is given
  an explicit fuel parameter, with `none` meaning the loop has not
  finished within the given number of iterations.
* `getTextInLanguage` embeds `_get_text_in_language` from
  `tractatus_service.py`.
* `sortKeyChars` / `ltKey` embed `_sort_key` from `tractatus_service.py`
  (the regular-expression split on digit runs) together with Python's
  list/str/int comparison as used by `sorted`.
* `renderTreeData` embeds `_render_tree_data` from `tractatus_service.py`
  with an explicit fuel parameter; the path-local visited set is passed
  down functionally, which matches the mutate-then-restore discipline of
  the source.
* `listCmd`, `treeCmd`, `navigateAdjacent` embed `list`, `tree`,
  `_navigate_adjacent` from `tractatus_service.py`.  The dictionary
  serialisation `_proposition_to_dict` is modelled as returning the node
  record itself: the claims under study only concern which nodes appear.
* `ingestText` embeds `ingest_text` from `tractatus_orm/ingest.py`; the
  `session.flush()` call is modelled as the uniqueness check that the
  `unique=True` constraint on `Proposition.name` (`tractatus_orm/models.py`)
  makes the database perform at that point.
* `cacheStore` / `cacheLookup` embed `AgentCache.store` / `AgentCache.lookup`
  from `tractatus_agents/cache.py`; the SHA-256 digest is modelled as an
  arbitrary digest function parameter applied to exactly the hashed
  byte-string `action ++ "\x00" ++ prompt`.
* `fromCliToken` embeds `AgentAction.from_cli_token` from
  `tractatus_agents/router.py`.
* `treeMaxDepthArg` and `validTreeMaxDepth` embed the `max_depth =
  depth_pref or None` computation of `tree` and the `tree_max_depth`
  range rule of `TrcliConfig.validate_preference` (`tractatus_config.py`).
-/

/-! ## Hierarchy resolution (`tractatus_orm/ingest.py`) -/

/-- Inner loop of `_find_parent_by_longest_prefix`: try candidate lengths
`l, l-1, ..., 1` and return the first candidate `name[0:length]` found in
the known-address list. -/
def scanLen (name : List Char) (known : List (List Char)) : Nat → Option (List Char)
  | 0 => none
  | l + 1 =>
    let cand := name.take (l + 1)
    if cand ∈ known then some cand else scanLen name known l

/-- Embedding of `_find_parent_by_longest_prefix`: if `name` has no `'.'`
return `none`, otherwise scan lengths `len(name)-1` down to `1`. -/
def findParentLongest (name : List Char) (known : List (List Char)) : Option (List Char) :=
  if '.' ∈ name then scanLen name known (name.length - 1) else none

/-- Embedding of `parent_map.get(current)` on an association list:
a missing key and a key stored with value `None` both give `none`. -/
def pmGet (pm : List (String × Option String)) (k : String) : Option String :=
  match pm.lookup k with
  | some v => v
  | none => none

/-- Embedding of the `while` loop of `_calculate_level`, with explicit
fuel.  `none` means the loop has not terminated within `fuel` iterations;
the source has no visited-set guard, so the loop body is exactly
`current = parent_map[current]; level += 1`. -/
def calcLevelFuel (pm : List (String × Option String)) : Nat → String → Nat → Option Nat
  | 0, _, _ => none
  | fuel + 1, cur, lvl =>
    match pmGet pm cur with
    | none => some lvl
    | some p => calcLevelFuel pm fuel p (lvl + 1)

/-- The level walk of `_calculate_level` terminates on `name`:
some amount of fuel lets the loop run to completion. -/
def calcLevelTerminates (pm : List (String × Option String)) (name : String) : Prop :=
  ∃ fuel, (calcLevelFuel pm fuel name 1).isSome = true

/-! ### Lemmas about the longest-existing-prefix scan -/

theorem scanLen_eq_none_iff (name : List Char) (known : List (List Char)) :
    ∀ l, scanLen name known l = none ↔
      ∀ j, 1 ≤ j → j ≤ l → name.take j ∉ known := by
  intro l
  induction l with
  | zero =>
    simp only [scanLen, true_iff]
    intro j h1 hj
    omega
  | succ n ih =>
    simp only [scanLen]
    by_cases h : name.take (n + 1) ∈ known
    · simp only [if_pos h]
      constructor
      · intro hc; exact absurd hc (by simp)
      · intro hall
        exact absurd h (hall (n + 1) (Nat.succ_le_succ (Nat.zero_le n)) le_rfl)
    · simp only [if_neg h]
      rw [ih]
      constructor
      · intro hall j h1 hj
        rcases Nat.lt_or_ge j (n + 1) with hlt | hge
        · exact hall j h1 (Nat.lt_succ_iff.mp hlt)
        · have : j = n + 1 := Nat.le_antisymm hj hge
          simpa [this] using h
      · intro hall j h1 hj
        exact hall j h1 (Nat.le_succ_of_le hj)

theorem scanLen_eq_some (name : List Char) (known : List (List Char)) :
    ∀ l c, scanLen name known l = some c →
      ∃ j, 1 ≤ j ∧ j ≤ l ∧ c = name.take j ∧ name.take j ∈ known ∧
        ∀ j', j < j' → j' ≤ l → name.take j' ∉ known := by
  intro l
  induction l with
  | zero => intro c hc; simp [scanLen] at hc
  | succ n ih =>
    intro c hc
    simp only [scanLen] at hc
    by_cases h : name.take (n + 1) ∈ known
    · rw [if_pos h] at hc
      refine ⟨n + 1, Nat.succ_le_succ (Nat.zero_le n), le_rfl, ?_, h, ?_⟩
      · exact (Option.some.inj hc).symm
      · intro j' hlt hle; omega
    · rw [if_neg h] at hc
      obtain ⟨j, h1, hj, hcj, hmem, hmax⟩ := ih c hc
      refine ⟨j, h1, Nat.le_succ_of_le hj, hcj, hmem, ?_⟩
      intro j' hlt hle
      rcases Nat.lt_or_ge j' (n + 1) with hlt' | hge
      · exact hmax j' hlt (Nat.lt_succ_iff.mp hlt')
      · have : j' = n + 1 := Nat.le_antisymm hle hge
        simpa [this] using h

/-- C1: `_find_parent_by_longest_prefix` returns `none` when the name has
no `'.'`; otherwise it returns the longest proper prefix `name[0:length]`
(for `length` scanned from `len(name)-1` down to `1`) that is a member of
the known-address set, or `none` when no such candidate exists.  For the
known set `{"2", "2.01", "2.011"}` and the name `"2.0121"` the resolved
parent is `"2.01"`. -/
theorem claim_parent_longest_existing_proper_pfx :
    (∀ (name : List Char) (known : List (List Char)),
      ('.' ∉ name → findParentLongest name known = none) ∧
      (∀ c, findParentLongest name known = some c →
        '.' ∈ name ∧ c ∈ known ∧
        ∃ l, 1 ≤ l ∧ l ≤ name.length - 1 ∧ c = name.take l ∧
          ∀ j, l < j → j ≤ name.length - 1 → name.take j ∉ known) ∧
      ('.' ∈ name → findParentLongest name known = none →
        ∀ l, 1 ≤ l → l ≤ name.length - 1 → name.take l ∉ known)) ∧
    findParentLongest "2.0121".toList
      ["2".toList, "2.01".toList, "2.011".toList] = some "2.01".toList := by
  constructor
  · intro name known
    refine ⟨?_, ?_, ?_⟩
    · intro hnd
      simp [findParentLongest, hnd]
    · intro c hc
      have hdot : '.' ∈ name := by
        by_contra hnd
        simp [findParentLongest, hnd] at hc
      rw [findParentLongest, if_pos hdot] at hc
      obtain ⟨j, h1, hj, hcj, hmem, hmax⟩ := scanLen_eq_some name known _ c hc
      exact ⟨hdot, hcj ▸ hmem, j, h1, hj, hcj, hmax⟩
    · intro hdot hc
      rw [findParentLongest, if_pos hdot] at hc
      exact (scanLen_eq_none_iff name known _).mp hc
  · decide

/-- Witness for C1: a name without `'.'` resolves to no parent. -/
theorem claim_parent_longest_existing_proper_pfx_witness :
    findParentLongest "2".toList ["2".toList] = none :=
  (claim_parent_longest_existing_proper_pfx.1 "2".toList ["2".toList]).1 (by decide)

/-- A parent map holding a self-reference, as the C2 claim's "cycle or
self-reference" case requires the walk to survive. -/
def pmCyc : List (String × Option String) := [("2.01", some "2.01")]

theorem calcLevelFuel_pmCyc_eq_none :
    ∀ fuel lvl, calcLevelFuel pmCyc fuel "2.01" lvl = none := by
  intro fuel
  induction fuel with
  | zero => intro lvl; rfl
  | succ n ih =>
    intro lvl
    simp only [calcLevelFuel]
    have h : pmGet pmCyc "2.01" = some "2.01" := by rfl
    rw [h]
    exact ih (lvl + 1)

/-- C2 counterexample: on the self-referential parent map
`{"2.01" ↦ "2.01"}` the level walk of `_calculate_level` never finishes,
whatever the iteration budget — there is no visited-set guard in the
code, so the claim that the walk terminates on every parent map,
including cyclic ones, is false. -/
theorem claim_level_walk_cycle_counterexample :
    ¬ calcLevelTerminates pmCyc "2.01" := by
  intro ⟨fuel, hfuel⟩
  rw [calcLevelFuel_pmCyc_eq_none fuel 1] at hfuel
  simp at hfuel

theorem calcLevelFuel_isSome_of_shrinking
    (pm : List (String × Option String))
    (hpm : ∀ k v, pmGet pm k = some v → v.length < k.length) :
    ∀ fuel (name : String) (lvl : Nat), name.length < fuel →
      (calcLevelFuel pm fuel name lvl).isSome = true := by
  intro fuel
  induction fuel with
  | zero => intro name lvl h; omega
  | succ n ih =>
    intro name lvl h
    simp only [calcLevelFuel]
    cases hp : pmGet pm name with
    | none => rfl
    | some p =>
      have hlen := hpm name p hp
      exact ih p (lvl + 1) (by omega)

/-- C2 amended: the level walk of `_calculate_level` terminates whenever
every parent recorded in the map is strictly shorter than its child —
which holds for every parent map produced by
`_find_parent_by_longest_prefix`, whose parents are proper prefixes.
There is no visited-set guard in the code, and on a parent map with a
reachable cycle or self-reference the walk does not terminate. -/
theorem claim_level_walk_terminates_on_shrinking_maps
    (pm : List (String × Option String)) (name : String)
    (hpm : ∀ k v, pmGet pm k = some v → v.length < k.length) :
    (calcLevelFuel pm (name.length + 1) name 1).isSome = true ∧
      calcLevelTerminates pm name := by
  have h := calcLevelFuel_isSome_of_shrinking pm hpm (name.length + 1) name 1
    (Nat.lt_succ_self _)
  exact ⟨h, name.length + 1, h⟩

/-- Witness for the amended C2 on the concrete shrinking parent map
`{"2.01" ↦ "2"}`. -/
theorem claim_level_walk_terminates_on_shrinking_maps_witness :
    (calcLevelFuel [("2.01", some "2")] ("2.01".length + 1) "2.01" 1).isSome = true ∧
      calcLevelTerminates [("2.01", some "2")] "2.01" :=
  claim_level_walk_terminates_on_shrinking_maps [("2.01", some "2")] "2.01" (by
    intro k v h
    simp only [pmGet, List.lookup] at h
    cases hk : (k == "2.01") <;> rw [hk] at h
    · cases h
    · have hv : v = "2" := by cases h; rfl
      have hkk : k = "2.01" := beq_iff_eq.mp hk
      rw [hv, hkk]
      decide)

/-! ## Text resolution (`tractatus_service.py`, `_get_text_in_language`)

Python strings are modelled as `List Char` here so that lowercasing and
the `startswith` tests are structurally computable. -/

/-- The four language code constants of `_get_text_in_language`. -/
def deChars : List Char := ['d', 'e']

def enChars : List Char := ['e', 'n']

def frChars : List Char := ['f', 'r']

def ptChars : List Char := ['p', 't']

/-- A row of the `Translation` table as seen by the text resolver:
language code, text, and `variant_type`. -/
structure TransRec where
  lang : List Char
  text : String
  variantType : String
deriving DecidableEq

/-- A `Proposition` as seen by the text resolver: original (German) text
plus the owned translations in stored insertion order. -/
structure PropLang where
  text : String
  translations : List TransRec
deriving DecidableEq

/-- Python `a or b` for an optional string `a`: `None` and `""` are falsy. -/
def pyStrOr (a : Option (List Char)) (b : List Char) : List Char :=
  match a with
  | none => b
  | some s => if s = [] then b else s

/-- Python `str.lower`, character by character. -/
def lowerChars (cs : List Char) : List Char := cs.map Char.toLower

/-- Python `cs.startswith(pre)`. -/
def startsWithChars (cs pre : List Char) : Bool := pre.isPrefixOf cs

/-- The `lang = (language or self.config.get("lang") or "").lower()` line. -/
def effLang (language configLang : Option (List Char)) : List Char :=
  lowerChars (pyStrOr language (pyStrOr configLang []))

/-- The per-translation test `trans.lang and trans.lang.lower().startswith(prefix)`
of `_get_text_in_language`.  Note that `variant_type` plays no role. -/
def transMatches (pfx : List Char) (t : TransRec) : Bool :=
  !t.lang.isEmpty && startsWithChars (lowerChars t.lang) pfx

/-- The inner `for trans in prop.translations` loop: first match wins. -/
def firstTransFor (pfx : List Char) (ts : List TransRec) : Option TransRec :=
  ts.find? (transMatches pfx)

/-- Embedding of `_get_text_in_language`: German original for a language
starting with `"de"`, then the `("en", "fr", "pt")` chain, each returning
the first translation whose language matches the prefix, and the German
text in every other case. -/
def getTextInLanguage (prop : PropLang) (language configLang : Option (List Char)) : String :=
  let lang := effLang language configLang
  if startsWithChars lang deChars then prop.text
  else if startsWithChars lang enChars then
    (match firstTransFor enChars prop.translations with
     | some t => t.text
     | none => prop.text)
  else if startsWithChars lang frChars then
    (match firstTransFor frChars prop.translations with
     | some t => t.text
     | none => prop.text)
  else if startsWithChars lang ptChars then
    (match firstTransFor ptChars prop.translations with
     | some t => t.text
     | none => prop.text)
  else prop.text

/-- Which of the hardcoded translation prefixes the resolver's if-chain
selects for a given lowercased language, if any. -/
def selectedPfx (lang : List Char) : Option (List Char) :=
  if startsWithChars lang deChars then none
  else if startsWithChars lang enChars then some enChars
  else if startsWithChars lang frChars then some frChars
  else if startsWithChars lang ptChars then some ptChars
  else none

/-- A proposition whose only English entry is a user alternative. -/
def altOnlyProp : PropLang :=
  { text := "Die Welt ist alles, was der Fall ist."
    translations := [{ lang := enChars
                       text := "user rewrite"
                       variantType := "alternative" }] }

/-- C3 counterexample: requesting `"en"` on a node whose only
English-language entry has `variant_type = "alternative"` returns that
alternative's text, not `node.text` — `_get_text_in_language` never
inspects `variant_type`, so the claim that alternatives are never
returned (and that the resolver falls back to `node.text` here) is
false. -/
theorem claim_text_resolver_counterexample :
    getTextInLanguage altOnlyProp (some enChars) none = "user rewrite" ∧
      altOnlyProp.text ≠ "user rewrite" := by
  refine ⟨rfl, ?_⟩
  decide

theorem find?_split_first {α : Type} (p : α → Bool) :
    ∀ (pre : List α) (t : α) (post : List α), (∀ u ∈ pre, p u = false) → p t = true →
      List.find? p (pre ++ t :: post) = some t := by
  intro pre
  induction pre with
  | nil =>
    intro t post _ hp
    simpa using List.find?_cons_of_pos post hp
  | cons a as ih =>
    intro t post h hp
    have ha : p a = false := h a (List.mem_cons_self a as)
    have : List.find? p (a :: (as ++ t :: post)) = List.find? p (as ++ t :: post) :=
      List.find?_cons_of_neg _ (by simp [ha])
    simpa [this] using ih t post (fun u hu => h u (List.mem_cons_of_mem a hu)) hp

/-- C3 amended: if the effective lowercased language starts with `"de"`
(the original language) — or with none of the supported translation
prefixes `"en"`, `"fr"`, `"pt"` — the resolver returns `node.text`.
When the if-chain selects a supported prefix, the resolver returns the
text of the first translation, in stored insertion order, whose language
code is nonempty and, lowercased, starts with that prefix — regardless
of its `variant_type`, so `"alternative"` variants can be returned — and
falls back to `node.text` when no translation matches. -/
theorem claim_text_resolver_first_match_any_variant
    (prop : PropLang) (language configLang : Option (List Char)) :
    (selectedPfx (effLang language configLang) = none →
      getTextInLanguage prop language configLang = prop.text) ∧
    (∀ pfx, selectedPfx (effLang language configLang) = some pfx →
      ((∀ t ∈ prop.translations, transMatches pfx t = false) →
        getTextInLanguage prop language configLang = prop.text) ∧
      (∀ pre t post, prop.translations = pre ++ t :: post →
        (∀ u ∈ pre, transMatches pfx u = false) → transMatches pfx t = true →
        getTextInLanguage prop language configLang = t.text)) := by
  by_cases hde : startsWithChars (effLang language configLang) deChars = true
  · constructor
    · intro _
      simp [getTextInLanguage, hde]
    · intro pfx hpfx
      simp [selectedPfx, hde] at hpfx
  · by_cases hen : startsWithChars (effLang language configLang) enChars = true
    · constructor
      · intro hsel
        simp [selectedPfx, hde, hen] at hsel
      · intro pfx hpfx
        have hp : pfx = enChars := by
          simp [selectedPfx, hde, hen] at hpfx
          exact hpfx.symm
        subst hp
        constructor
        · intro hall
          have : firstTransFor enChars prop.translations = none :=
            List.find?_eq_none.mpr (fun x hx => by simp [hall x hx])
          simp [getTextInLanguage, hde, hen, this]
        · intro pre t post hsplit hpre ht
          have : firstTransFor enChars prop.translations = some t := by
            rw [firstTransFor, hsplit]
            exact find?_split_first _ pre t post hpre ht
          simp [getTextInLanguage, hde, hen, this]
    · by_cases hfr : startsWithChars (effLang language configLang) frChars = true
      · constructor
        · intro hsel
          simp [selectedPfx, hde, hen, hfr] at hsel
        · intro pfx hpfx
          have hp : pfx = frChars := by
            simp [selectedPfx, hde, hen, hfr] at hpfx
            exact hpfx.symm
          subst hp
          constructor
          · intro hall
            have : firstTransFor frChars prop.translations = none :=
              List.find?_eq_none.mpr (fun x hx => by simp [hall x hx])
            simp [getTextInLanguage, hde, hen, hfr, this]
          · intro pre t post hsplit hpre ht
            have : firstTransFor frChars prop.translations = some t := by
              rw [firstTransFor, hsplit]
              exact find?_split_first _ pre t post hpre ht
            simp [getTextInLanguage, hde, hen, hfr, this]
      · by_cases hpt : startsWithChars (effLang language configLang) ptChars = true
        · constructor
          · intro hsel
            simp [selectedPfx, hde, hen, hfr, hpt] at hsel
          · intro pfx hpfx
            have hp : pfx = ptChars := by
              simp [selectedPfx, hde, hen, hfr, hpt] at hpfx
              exact hpfx.symm
            subst hp
            constructor
            · intro hall
              have : firstTransFor ptChars prop.translations = none :=
                List.find?_eq_none.mpr (fun x hx => by simp [hall x hx])
              simp [getTextInLanguage, hde, hen, hfr, hpt, this]
            · intro pre t post hsplit hpre ht
              have : firstTransFor ptChars prop.translations = some t := by
                rw [firstTransFor, hsplit]
                exact find?_split_first _ pre t post hpre ht
              simp [getTextInLanguage, hde, hen, hfr, hpt, this]
        · constructor
          · intro _
            simp [getTextInLanguage, hde, hen, hfr, hpt]
          · intro pfx hpfx
            simp [selectedPfx, hde, hen, hfr, hpt] at hpfx

/-- Witness for the amended C3: a French request resolves to the first
(and only) French translation of a concrete node. -/
theorem claim_text_resolver_first_match_any_variant_witness :
    getTextInLanguage
      { text := "Die Welt ist alles, was der Fall ist."
        translations := [{ lang := frChars, text := "le monde", variantType := "translation" }] }
      (some frChars) none = "le monde" :=
  ((claim_text_resolver_first_match_any_variant _ (some frChars) none).2
      frChars (by decide)).2
    [] { lang := frChars, text := "le monde", variantType := "translation" } []
    rfl (by simp) (by decide)

/-! ## Action routing (`tractatus_agents/router.py`) -/

/-- The `AgentAction` enum values, in declaration order. -/
inductive AgentAction where
  | comment
  | comparison
  | websearch
  | reference
deriving DecidableEq

/-- The `value` string of each enum member. -/
def actionValue : AgentAction → List Char
  | .comment => "comment".toList
  | .comparison => "comparison".toList
  | .websearch => "websearch".toList
  | .reference => "reference".toList

/-- Iteration order of `for action in cls` — enum declaration order. -/
def actionOrder : List AgentAction :=
  [.comment, .comparison, .websearch, .reference]

/-- Python `str.strip()`: drop whitespace from both ends. -/
def trimChars (cs : List Char) : List Char :=
  ((cs.dropWhile Char.isWhitespace).reverse.dropWhile Char.isWhitespace).reverse

/-- Embedding of `AgentAction.from_cli_token`: `COMMENT` for a missing or
empty token; otherwise the first enum member, in declaration order, whose
value is a prefix of the lowercased stripped token (the code tests
`lowered.startswith(action.value)`), and a `ValueError` when none is. -/
def fromCliToken (token : Option (List Char)) : Except String AgentAction :=
  match token with
  | none => .ok .comment
  | some t =>
    if t.isEmpty then .ok .comment
    else
      let lowered := lowerChars (trimChars t)
      match actionOrder.find? (fun a => startsWithChars lowered (actionValue a)) with
      | some a => .ok a
      | none => .error "Unknown LLM action"

/-- C9: action parsing returns `COMMENT` for a `None` or empty token;
otherwise it returns the first action, checked in the fixed order
comment, comparison, websearch, reference, whose full value string is a
prefix of the lowercased stripped token, and fails with a `ValueError`
exactly when no action value is such a prefix.  In particular `"comp"`
is rejected while `"comments"` resolves to `COMMENT`. -/
theorem claim_action_token_full_value_pfx_match :
    fromCliToken none = .ok .comment ∧
    fromCliToken (some []) = .ok .comment ∧
    (∀ t, t.isEmpty = false →
      fromCliToken (some t) =
        (if startsWithChars (lowerChars (trimChars t)) (actionValue .comment) then
          .ok .comment
        else if startsWithChars (lowerChars (trimChars t)) (actionValue .comparison) then
          .ok .comparison
        else if startsWithChars (lowerChars (trimChars t)) (actionValue .websearch) then
          .ok .websearch
        else if startsWithChars (lowerChars (trimChars t)) (actionValue .reference) then
          .ok .reference
        else .error "Unknown LLM action")) ∧
    (∀ t, t.isEmpty = false →
      ((fromCliToken (some t)).toOption = none ↔
        ∀ a ∈ actionOrder,
          startsWithChars (lowerChars (trimChars t)) (actionValue a) = false)) ∧
    (fromCliToken (some "comp".toList)).toOption = none ∧
    fromCliToken (some "comments".toList) = .ok .comment := by
  refine ⟨rfl, rfl, ?_, ?_, rfl, rfl⟩
  · intro t ht
    simp only [fromCliToken, ht, Bool.false_eq_true, if_false, actionOrder, List.find?]
    by_cases h1 : startsWithChars (lowerChars (trimChars t)) (actionValue .comment) = true
    · simp [h1]
    · simp only [Bool.not_eq_true] at h1
      by_cases h2 : startsWithChars (lowerChars (trimChars t)) (actionValue .comparison) = true
      · simp [h1, h2]
      · simp only [Bool.not_eq_true] at h2
        by_cases h3 : startsWithChars (lowerChars (trimChars t)) (actionValue .websearch) = true
        · simp [h1, h2, h3]
        · simp only [Bool.not_eq_true] at h3
          by_cases h4 : startsWithChars (lowerChars (trimChars t)) (actionValue .reference) = true
          · simp [h1, h2, h3, h4]
          · simp only [Bool.not_eq_true] at h4
            simp [h1, h2, h3, h4]
  · intro t ht
    simp only [fromCliToken, ht, Bool.false_eq_true, if_false]
    cases hf : actionOrder.find? (fun a => startsWithChars (lowerChars (trimChars t)) (actionValue a)) with
    | some a =>
      simp only [Except.toOption]
      constructor
      · intro hc; cases hc
      · intro hall
        have := List.find?_some hf
        rw [hall a (List.mem_of_find?_eq_some hf)] at this
        cases this
    | none =>
      simp only [Except.toOption]
      constructor
      · intro _
        intro a ha
        have := List.find?_eq_none.mp hf a ha
        simpa using this
      · intro _; trivial

/-- Witness for C9 at a concrete nonempty token: the miss
characterisation instantiated at `"xyz"`. -/
theorem claim_action_token_full_value_pfx_match_witness :
    (fromCliToken (some "xyz".toList)).toOption = none ↔
      ∀ a ∈ actionOrder,
        startsWithChars (lowerChars (trimChars "xyz".toList)) (actionValue a) = false :=
  claim_action_token_full_value_pfx_match.2.2.2.1 "xyz".toList (by decide)

/-! ## Response cache (`tractatus_agents/cache.py`) -/

/-- A row of the `agent_cache` table: `prompt_hash` (the primary key),
`action`, `prompt` and `content`. -/
structure CacheRow where
  key : String
  action : String
  prompt : String
  content : String
deriving DecidableEq

/-- The single separator byte `b"\0"` fed between action and prompt. -/
def sepByte : String := String.singleton (Char.ofNat 0)

/-- Embedding of `AgentCache._hash_key`: the SHA-256 digest is modelled
as an arbitrary digest function applied to exactly the hashed input
`action ++ "\x00" ++ prompt`. -/
def hashKey (digest : String → String) (action prompt : String) : String :=
  digest (action ++ sepByte ++ prompt)

/-- Embedding of `AgentCache.lookup`: select the row whose `prompt_hash`
matches and return its content. -/
def cacheLookup (digest : String → String) (st : List CacheRow)
    (action prompt : String) : Option String :=
  (st.find? (fun r => r.key == hashKey digest action prompt)).map (fun r => r.content)

/-- Embedding of `AgentCache.store`: `INSERT OR REPLACE` keyed on
`prompt_hash` — any row with the same key is replaced. -/
def cacheStore (digest : String → String) (st : List CacheRow)
    (action prompt content : String) : List CacheRow :=
  { key := hashKey digest action prompt
    action := action, prompt := prompt, content := content } ::
    st.filter (fun r => !(r.key == hashKey digest action prompt))

/-- C8: for every digest function, cache state, action and prompt:
`store` followed by `lookup` with the same action and prompt returns the
stored content; on a fresh cache, a lookup whose fingerprint differs is
a miss; and a second `store` with the same action and prompt
unconditionally overwrites, so a subsequent lookup returns the newer
content (last-writer-wins). -/
theorem claim_cache_store_lookup_last_writer_wins
    (digest : String → String) (st : List CacheRow) (action prompt content : String) :
    cacheLookup digest (cacheStore digest st action prompt content) action prompt
      = some content ∧
    (∀ a p, hashKey digest a p ≠ hashKey digest action prompt →
      cacheLookup digest (cacheStore digest [] action prompt content) a p = none) ∧
    (∀ c₂, cacheLookup digest
        (cacheStore digest (cacheStore digest st action prompt content)
          action prompt c₂) action prompt = some c₂) := by
  refine ⟨?_, ?_, ?_⟩
  · simp [cacheLookup, cacheStore, List.find?]
  · intro a p hne
    simp only [cacheLookup, cacheStore, List.filter]
    rw [List.find?_cons_of_neg]
    · rfl
    · simp only [beq_iff_eq]
      exact fun h => hne h.symm
  · intro c₂
    simp [cacheLookup, cacheStore, List.find?]

/-- Witness for C8 with the identity digest: `"comment"/"P"` round-trips
to `"X"`, the trailing-space prompt `"P "` misses, and re-storing `"Y"`
overwrites. -/
theorem claim_cache_store_lookup_last_writer_wins_witness :
    cacheLookup (fun s => s) (cacheStore (fun s => s) [] "comment" "P" "X") "comment" "P"
      = some "X" ∧
    cacheLookup (fun s => s) (cacheStore (fun s => s) [] "comment" "P" "X") "comment" "P "
      = none ∧
    cacheLookup (fun s => s)
      (cacheStore (fun s => s) (cacheStore (fun s => s) [] "comment" "P" "X")
        "comment" "P" "Y") "comment" "P" = some "Y" := by
  obtain ⟨h1, h2, h3⟩ :=
    claim_cache_store_lookup_last_writer_wins (fun s => s) [] "comment" "P" "X"
  exact ⟨h1, h2 "comment" "P " (by decide), h3 "Y"⟩

/-! ## Node table and natural sort key (`tractatus_service.py`)

`PropRec` models a row of the `tractatus` table (`models.py`); `_sort_key`
splits a name into alternating non-digit runs and integer digit runs and
Python's `sorted` compares those token lists lexicographically. -/

/-- A `Proposition` row: surrogate id, unique name, text, level,
ingestion order, and optional parent id. -/
structure PropRec where
  id : Int
  name : String
  text : String
  level : Int
  sortOrder : Int
  parentId : Option Int
deriving DecidableEq

/-- A raw run produced by `re.split(r"(\d+)", name)`: a (possibly empty)
non-digit run or a (nonempty) digit run. -/
inductive RunTok where
  | strRun (v : List Char)
  | numRun (v : List Char)
deriving DecidableEq

/-- The split of `re.split(r"(\d+)", name)`: alternating non-digit and
digit runs, beginning and ending with a (possibly empty) non-digit run.
Processing one character at a time keeps the recursion structural. -/
def runSplit : List Char → List RunTok
  | [] => [RunTok.strRun []]
  | c :: rest =>
    let ts := runSplit rest
    if c.isDigit then
      match ts with
      | RunTok.strRun [] :: RunTok.numRun ds :: tail =>
        RunTok.strRun [] :: RunTok.numRun (c :: ds) :: tail
      | _ => RunTok.strRun [] :: RunTok.numRun [c] :: ts
    else
      match ts with
      | RunTok.strRun s :: tail => RunTok.strRun (c :: s) :: tail
      | _ => RunTok.strRun [c] :: ts

/-- Python `int(...)` on a digit run. -/
def digitsToNat (ds : List Char) : Nat :=
  ds.foldl (fun a c => a * 10 + (c.toNat - 48)) 0

/-- A token of `_sort_key`: a string piece or an `int(part)` piece. -/
inductive SortTok where
  | str (v : List Char)
  | num (v : Nat)
deriving DecidableEq

/-- Embedding of `_sort_key`: digit runs become integers, the rest stays
as string pieces. -/
def sortKeyChars (cs : List Char) : List SortTok :=
  (runSplit cs).map (fun t =>
    match t with
    | RunTok.strRun s => SortTok.str s
    | RunTok.numRun ds => SortTok.num (digitsToNat ds))

/-- `_sort_key` applied to a node name. -/
def sortKey (name : String) : List SortTok := sortKeyChars name.toList

/-- Lexicographic lift of a strict comparison to lists, exactly Python's
sequence comparison: a shorter sequence precedes any extension of it. -/
def ltLex {α : Type} (lt : α → α → Bool) : List α → List α → Bool
  | _, [] => false
  | [], _ :: _ => true
  | a :: as, b :: bs =>
    if lt a b then true else if lt b a then false else ltLex lt as bs

/-- Python `<` on two characters (by code point). -/
def charLt (a b : Char) : Bool := decide (a < b)

/-- Python string comparison, character-lexicographic. -/
def ltCharList : List Char → List Char → Bool := ltLex charLt

/-- Python `<` on two `_sort_key` tokens.  Comparing an `int` with a
`str` raises `TypeError` in Python; between two well-formed keys the
constructors always agree position-wise (both keys alternate str, num,
str, ...), so that case is never exercised and is fixed here as
`num < str` only to make the order total. -/
def ltTok : SortTok → SortTok → Bool
  | .num a, .num b => decide (a < b)
  | .str a, .str b => ltCharList a b
  | .num _, .str _ => true
  | .str _, .num _ => false

/-- Python `<` on two `_sort_key` results. -/
def ltKey : List SortTok → List SortTok → Bool := ltLex ltTok

/-- The (non-strict) order on rows that Python's stable `sorted` with
key `_sort_key` realises. -/
def propLe (a b : PropRec) : Bool := !ltKey (sortKey b.name) (sortKey a.name)

/-- The order-by-`sort_order` of the ORM `children` relationship. -/
def sortOrderLe (a b : PropRec) : Bool := decide (a.sortOrder ≤ b.sortOrder)

/-- `node.children` as materialised by the ORM: the rows whose
`parent_id` is this node's id, ordered by `sort_order`. -/
def ormChildren (db : List PropRec) (node : PropRec) : List PropRec :=
  (db.filter (fun c => c.parentId == some node.id)).mergeSort sortOrderLe

/-- `sorted(children, key=lambda child: self._sort_key(child.name))`. -/
def sortedByKey (ps : List PropRec) : List PropRec := ps.mergeSort propLe

/-! ### The sort key order is a total preorder -/

theorem ltLex_asymm {α : Type} (lt : α → α → Bool)
    (hasym : ∀ a b, lt a b = true → lt b a = false) :
    ∀ x y, ltLex lt x y = true → ltLex lt y x = false := by
  intro x
  induction x with
  | nil =>
    intro y h
    cases y with
    | nil => simpa [ltLex] using h
    | cons b bs => rfl
  | cons a as ih =>
    intro y h
    cases y with
    | nil => simpa [ltLex] using h
    | cons b bs =>
      simp only [ltLex] at h ⊢
      by_cases hab : lt a b = true
      · rw [hasym a b hab]
        simp [hab]
      · rw [if_neg hab] at h
        by_cases hba : lt b a = true
        · rw [if_pos hba] at h
          cases h
        · rw [if_neg hba] at h
          rw [if_neg hba, if_neg hab]
          exact ih bs h

theorem ltLex_conn {α : Type} (lt : α → α → Bool)
    (hconn : ∀ a b, lt a b = false → lt b a = false → a = b) :
    ∀ x y, ltLex lt x y = false → ltLex lt y x = false → x = y := by
  intro x
  induction x with
  | nil =>
    intro y hx _
    cases y with
    | nil => rfl
    | cons b bs => simp [ltLex] at hx
  | cons a as ih =>
    intro y hx hy
    cases y with
    | nil => simp [ltLex] at hy
    | cons b bs =>
      simp only [ltLex] at hx hy
      by_cases hab : lt a b = true
      · rw [if_pos hab] at hx
        cases hx
      · rw [if_neg hab] at hx
        by_cases hba : lt b a = true
        · rw [if_pos hba] at hy
          cases hy
        · rw [if_neg hba] at hx
          rw [if_neg hba, if_neg hab] at hy
          have he : a = b := hconn a b (by simpa using hab) (by simpa using hba)
          rw [he, ih bs hx hy]

theorem ltLex_trans {α : Type} (lt : α → α → Bool)
    (htrans : ∀ a b c, lt a b = true → lt b c = true → lt a c = true)
    (hconn : ∀ a b, lt a b = false → lt b a = false → a = b) :
    ∀ x y z, ltLex lt x y = true → ltLex lt y z = true → ltLex lt x z = true := by
  intro x
  induction x with
  | nil =>
    intro y z hxy hyz
    cases z with
    | nil =>
      cases y with
      | nil => simpa [ltLex] using hxy
      | cons b bs => simpa [ltLex] using hyz
    | cons c cs => rfl
  | cons a as ih =>
    intro y z hxy hyz
    cases y with
    | nil => simp [ltLex] at hxy
    | cons b bs =>
      cases z with
      | nil => simp [ltLex] at hyz
      | cons c cs =>
        simp only [ltLex] at hxy hyz ⊢
        by_cases hab : lt a b = true
        · by_cases hbc : lt b c = true
          · simp [htrans a b c hab hbc]
          · rw [if_neg hbc] at hyz
            by_cases hcb : lt c b = true
            · rw [if_pos hcb] at hyz
              cases hyz
            · rw [if_neg hcb] at hyz
              have he : b = c := hconn b c (by simpa using hbc) (by simpa using hcb)
              rw [← he]
              simp [hab]
        · rw [if_neg hab] at hxy
          by_cases hba : lt b a = true
          · rw [if_pos hba] at hxy
            cases hxy
          · rw [if_neg hba] at hxy
            have he : a = b := hconn a b (by simpa using hab) (by simpa using hba)
            subst he
            by_cases hac : lt a c = true
            · simp [hac]
            · rw [if_neg hac] at hyz ⊢
              by_cases hca : lt c a = true
              · rw [if_pos hca] at hyz
                cases hyz
              · rw [if_neg hca] at hyz ⊢
                exact ih bs cs hxy hyz

theorem charLt_asymm (a b : Char) : charLt a b = true → charLt b a = false := by
  simp only [charLt, decide_eq_true_eq, decide_eq_false_iff_not]
  exact lt_asymm

theorem charLt_trans (a b c : Char) :
    charLt a b = true → charLt b c = true → charLt a c = true := by
  simp only [charLt, decide_eq_true_eq]
  exact lt_trans

theorem charLt_conn (a b : Char) : charLt a b = false → charLt b a = false → a = b := by
  simp only [charLt, decide_eq_false_iff_not]
  intro h1 h2
  exact le_antisymm (le_of_not_lt h2) (le_of_not_lt h1)

theorem ltTok_asymm (a b : SortTok) : ltTok a b = true → ltTok b a = false := by
  cases a <;> cases b <;> simp only [ltTok]
  · exact ltLex_asymm charLt charLt_asymm _ _
  · intro h; cases h
  · intro _; trivial
  · simp only [decide_eq_true_eq, decide_eq_false_iff_not]
    omega

theorem ltTok_trans (a b c : SortTok) :
    ltTok a b = true → ltTok b c = true → ltTok a c = true := by
  cases a <;> cases b <;> cases c <;> simp only [ltTok]
  · exact ltLex_trans charLt charLt_trans charLt_conn _ _ _
  · intro _ h2; cases h2
  · intro h1 _; cases h1
  · intro h1 _; cases h1
  · intro _ _; trivial
  · intro _ h2; cases h2
  · intro _ _; trivial
  · simp only [decide_eq_true_eq]
    omega

theorem ltTok_conn (a b : SortTok) : ltTok a b = false → ltTok b a = false → a = b := by
  cases a <;> cases b <;> simp only [ltTok]
  · intro h1 h2
    exact congrArg SortTok.str (ltLex_conn charLt charLt_conn _ _ h1 h2)
  · intro _ h2; cases h2
  · intro h1 _; cases h1
  · intro h1 h2
    simp only [decide_eq_false_iff_not] at h1 h2
    exact congrArg SortTok.num (by omega)

theorem ltKey_asymm (x y : List SortTok) : ltKey x y = true → ltKey y x = false :=
  ltLex_asymm ltTok ltTok_asymm x y

theorem ltKey_trans (x y z : List SortTok) :
    ltKey x y = true → ltKey y z = true → ltKey x z = true :=
  ltLex_trans ltTok ltTok_trans ltTok_conn x y z

theorem ltKey_conn (x y : List SortTok) : ltKey x y = false → ltKey y x = false → x = y :=
  ltLex_conn ltTok ltTok_conn x y

theorem propLe_total (a b : PropRec) : (propLe a b || propLe b a) = true := by
  simp only [propLe, Bool.or_eq_true, Bool.not_eq_true']
  by_cases h : ltKey (sortKey b.name) (sortKey a.name) = true
  · exact Or.inr (ltKey_asymm _ _ h)
  · exact Or.inl (by simpa using h)

theorem propLe_trans (a b c : PropRec) :
    propLe a b = true → propLe b c = true → propLe a c = true := by
  simp only [propLe, Bool.not_eq_true']
  intro hba hcb
  by_cases hca : ltKey (sortKey c.name) (sortKey a.name) = true
  · by_cases hab : ltKey (sortKey a.name) (sortKey b.name) = true
    · rw [ltKey_trans _ _ _ hca hab] at hcb
      cases hcb
    · have he := ltKey_conn _ _ (by simpa using hab) hba
      rw [he] at hca
      rw [hca] at hcb
      cases hcb
  · simpa using hca

/-! ## Tree rendering (`tractatus_service.py`, `_render_tree_data`) -/

/-- The test `max_depth is not None and depth >= max_depth`. -/
def depthCut (maxDepth : Option Int) (depth : Nat) : Bool :=
  match maxDepth with
  | some m => decide (m ≤ (depth : Int))
  | none => false

/-- Embedding of `_render_tree_data` with explicit fuel.  The `visited`
set of node ids is path-local: each recursive call receives the parent's
path extended by the parent's id, which is exactly what the Python
add-before/remove-after mutation realises.  An entry is the pair of the
relative depth and the node (the `_proposition_to_dict` serialisation is
a field projection and is not modelled). -/
def renderTreeData (db : List PropRec) :
    Nat → PropRec → Nat → Option Int → List Int → List (Nat × PropRec)
  | 0, _, _, _, _ => []
  | fuel + 1, node, depth, maxDepth, visited =>
    if node.id ∈ visited then []
    else if depthCut maxDepth depth then [(depth, node)]
    else
      (depth, node) ::
        (sortedByKey (ormChildren db node)).flatMap
          (fun c => renderTreeData db fuel c (depth + 1) maxDepth (node.id :: visited))

/-- Enough fuel to exhaust every distinct node id in the table. -/
def fuelFor (db : List PropRec) : Nat := (db.map (fun p => p.id)).toFinset.card + 1

/-- Ids of the table rows still available to a path with the given
visited set; each recursion step strictly shrinks this. -/
def renderMeasure (db : List PropRec) (visited : List Int) : Nat :=
  ((db.map (fun p => p.id)).toFinset \ visited.toFinset).card

/-! ## Navigation session (`tractatus_service.py`) -/

/-- Outcome of `list`: an error dictionary, a `{"children": []}`
dictionary without the current node, or a full result carrying the
current node and its children. -/
inductive ListResult where
  | err (msg : String)
  | childrenOnly (cs : List PropRec)
  | full (cur : PropRec) (cs : List PropRec)
deriving DecidableEq

/-- Outcome of a navigation step: an error dictionary or a node. -/
inductive NavResult where
  | err (msg : String)
  | ok (p : PropRec)
deriving DecidableEq

/-- Name lookup `select(Proposition).where(Proposition.name == key)`. -/
def findByName (db : List PropRec) (t : String) : Option PropRec :=
  db.find? (fun p => p.name == t)

/-- Surrogate-id lookup `session.get(Proposition, value)`. -/
def lookupId (db : List PropRec) (i : Int) : Option PropRec :=
  db.find? (fun p => p.id == i)

/-- The shared tail of `TractatusService.list` once `node = self.current`
is resolved: sort the children by `_sort_key`; an empty children list
yields only `{"children": []}`, otherwise current and children are
returned. -/
def listNodeResult (db : List PropRec) (node : PropRec) : ListResult × Option PropRec :=
  let cs := sortedByKey (ormChildren db node)
  if cs.isEmpty then (.childrenOnly [], some node)
  else (.full node cs, some node)

/-- Embedding of `TractatusService.list`: an optional target becomes
`current` first, then the shared tail runs on the resolved node. -/
def listCmd (db : List PropRec) : Option PropRec → Option String → ListResult × Option PropRec
  | current, some t =>
    (match findByName db t with
     | none => (.err ("No proposition found for " ++ t), current)
     | some node => listNodeResult db node)
  | none, none => (.err "No current node.", none)
  | some node, none => listNodeResult db node

/-- Embedding of `_navigate_adjacent`: look up `current.id + offset`;
on a miss report the error and keep `current`. -/
def navigateAdjacent (db : List PropRec) (current : Option PropRec) (offset : Int) :
    NavResult × Option PropRec :=
  match current with
  | none => (.err "No current node.", none)
  | some cur =>
    match lookupId db (cur.id + offset) with
    | none =>
      (.err (if 0 < offset then "No next proposition." else "No previous proposition."),
        some cur)
    | some p => (.ok p, some p)

/-- `TractatusService.next`. -/
def nextCmd (db : List PropRec) (current : Option PropRec) : NavResult × Option PropRec :=
  navigateAdjacent db current 1

/-- `TractatusService.previous`. -/
def previousCmd (db : List PropRec) (current : Option PropRec) : NavResult × Option PropRec :=
  navigateAdjacent db current (-1)

/-! ## Tree command and depth preference
(`tractatus_service.py` `tree`, `tractatus_config.py`) -/

/-- The `max_depth = depth_pref or None` line of `tree`: a Python int is
falsy exactly when it is `0`. -/
def treeMaxDepthArg (pref : Int) : Option Int := if pref = 0 then none else some pref

/-- The `tree_max_depth` rule of `validate_preference`: `0 <= value <= 12`. -/
def validTreeMaxDepth (pref : Int) : Bool := decide (0 ≤ pref) && decide (pref ≤ 12)

/-- The shipped `DEFAULT_PREFERENCES["tree_max_depth"]`. -/
def defaultTreeMaxDepth : Int := 0

/-- Embedding of `TractatusService.tree`: resolve the node as `list`
does, then render with `max_depth = depth_pref or None`. -/
def treeCmd (db : List PropRec) (current : Option PropRec) (target : Option String)
    (pref : Int) : Option (PropRec × List (Nat × PropRec)) × Option PropRec :=
  match target with
  | some t =>
    match findByName db t with
    | none => (none, current)
    | some node =>
      (some (node, renderTreeData db (fuelFor db) node 0 (treeMaxDepthArg pref) []),
        some node)
  | none =>
    match current with
    | none => (none, none)
    | some node =>
      (some (node, renderTreeData db (fuelFor db) node 0 (treeMaxDepthArg pref) []),
        some node)

/-! ### Renderer lemmas -/

theorem flatMap_congr_mem {α β : Type} (l : List α) (f g : α → List β)
    (h : ∀ a ∈ l, f a = g a) : l.flatMap f = l.flatMap g := by
  induction l with
  | nil => rfl
  | cons a as ih =>
    simp only [List.flatMap_cons]
    rw [h a (List.mem_cons_self a as), ih (fun x hx => h x (List.mem_cons_of_mem a hx))]

theorem countP_flatMap_zero {α β : Type} (p : β → Bool) (l : List α) (f : α → List β)
    (h : ∀ a ∈ l, (f a).countP p = 0) : (l.flatMap f).countP p = 0 := by
  induction l with
  | nil => rfl
  | cons a as ih =>
    simp only [List.flatMap_cons, List.countP_append]
    rw [h a (List.mem_cons_self a as), ih (fun x hx => h x (List.mem_cons_of_mem a hx))]

theorem mem_db_of_mem_sortedChildren (db : List PropRec) (node c : PropRec)
    (hc : c ∈ sortedByKey (ormChildren db node)) : c ∈ db := by
  have h1 : c ∈ ormChildren db node := List.mem_mergeSort.mp hc
  have h2 : c ∈ db.filter (fun x => x.parentId == some node.id) := List.mem_mergeSort.mp h1
  exact (List.mem_filter.mp h2).1

theorem renderMeasure_cons_lt (db : List PropRec) (visited : List Int) (i : Int)
    (hin : i ∈ db.map (fun p => p.id)) (hnot : i ∉ visited) :
    renderMeasure db (i :: visited) < renderMeasure db visited := by
  unfold renderMeasure
  rw [List.toFinset_cons, Finset.sdiff_insert]
  have hm : i ∈ (db.map (fun p => p.id)).toFinset \ visited.toFinset :=
    Finset.mem_sdiff.mpr
      ⟨List.mem_toFinset.mpr hin, fun hc => hnot (List.mem_toFinset.mp hc)⟩
  rw [Finset.card_erase_of_mem hm]
  have hpos : 0 < ((db.map (fun p => p.id)).toFinset \ visited.toFinset).card :=
    Finset.card_pos.mpr ⟨i, hm⟩
  omega

theorem renderTreeData_fuel_congr (db : List PropRec) (md : Option Int) :
    ∀ f₁ f₂ (node : PropRec) (depth : Nat) (visited : List Int),
      node.id ∈ db.map (fun p => p.id) →
      renderMeasure db visited < f₁ → renderMeasure db visited < f₂ →
      renderTreeData db f₁ node depth md visited =
        renderTreeData db f₂ node depth md visited := by
  intro f₁
  induction f₁ with
  | zero =>
    intro f₂ node depth visited _ h1 _
    omega
  | succ a ih =>
    intro f₂ node depth visited hid h1 h2
    cases f₂ with
    | zero => omega
    | succ b =>
      simp only [renderTreeData]
      by_cases hv : node.id ∈ visited
      · simp [hv]
      · simp only [if_neg hv]
        have hlt := renderMeasure_cons_lt db visited node.id hid hv
        by_cases hd : depthCut md depth = true
        · simp [hd]
        · simp only [hd, if_false, Bool.false_eq_true]
          congr 1
          apply flatMap_congr_mem
          intro c hc
          have hcid : c.id ∈ db.map (fun p => p.id) :=
            List.mem_map_of_mem _ (mem_db_of_mem_sortedChildren db node c hc)
          exact ih b c (depth + 1) (node.id :: visited) hcid (by omega) (by omega)

theorem renderTreeData_countP_zero (db : List PropRec) (xid : Int) (md : Option Int) :
    ∀ fuel (node : PropRec) (depth : Nat) (visited : List Int), xid ∈ visited →
      (renderTreeData db fuel node depth md visited).countP
        (fun e => e.2.id == xid) = 0 := by
  intro fuel
  induction fuel with
  | zero =>
    intro node depth visited _
    rfl
  | succ a ih =>
    intro node depth visited hx
    simp only [renderTreeData]
    by_cases hv : node.id ∈ visited
    · simp [hv]
    · have hne : (node.id == xid) = false := by
        have hne' : node.id ≠ xid := fun h => hv (h ▸ hx)
        simpa using hne'
      simp only [if_neg hv]
      by_cases hd : depthCut md depth = true
      · simp [hd, List.countP_cons, hne]
      · simp only [hd, if_false, Bool.false_eq_true]
        rw [List.countP_cons]
        have hz := countP_flatMap_zero (fun e => e.2.id == xid)
          (sortedByKey (ormChildren db node))
          (fun c => renderTreeData db a c (depth + 1) md (node.id :: visited))
          (fun c _ => ih c (depth + 1) (node.id :: visited) (List.mem_cons_of_mem _ hx))
        simp [hz, hne]

/-- C4: for a node whose `parent_id` equals its own `id` — which
therefore appears in its own children list — rendering terminates (the
result is fuel-independent once the fuel covers every distinct id, which
is what the Python recursion computes) and the node occurs exactly once
in the output; descent into the self-referencing branch is suppressed by
the path-local visited set rather than raised as an error. -/
theorem claim_self_parent_rendered_once (db : List PropRec) (x : PropRec) (md : Option Int)
    (hmem : x ∈ db) (hself : x.parentId = some x.id) :
    x ∈ sortedByKey (ormChildren db x) ∧
    (∀ fuel, fuelFor db ≤ fuel →
      renderTreeData db fuel x 0 md [] = renderTreeData db (fuelFor db) x 0 md []) ∧
    (renderTreeData db (fuelFor db) x 0 md []).countP (fun e => e.2.id == x.id) = 1 := by
  have hmeas : renderMeasure db [] + 1 = fuelFor db := by
    unfold renderMeasure fuelFor
    rw [List.toFinset_nil, Finset.sdiff_empty]
  refine ⟨?_, ?_, ?_⟩
  · apply List.mem_mergeSort.mpr
    apply List.mem_mergeSort.mpr
    exact List.mem_filter.mpr ⟨hmem, by simp [hself]⟩
  · intro fuel hfuel
    exact renderTreeData_fuel_congr db md fuel (fuelFor db) x 0 []
      (List.mem_map_of_mem _ hmem) (by omega) (by omega)
  · have hN : fuelFor db = (db.map (fun p => p.id)).toFinset.card + 1 := rfl
    rw [hN]
    simp only [renderTreeData]
    rw [if_neg (by simp)]
    by_cases hd : depthCut md 0 = true
    · simp [hd]
    · simp only [hd, if_false, Bool.false_eq_true]
      rw [List.countP_cons]
      have hz := countP_flatMap_zero (fun e => e.2.id == x.id)
        (sortedByKey (ormChildren db x))
        (fun c => renderTreeData db ((db.map (fun p => p.id)).toFinset.card) c 1 md [x.id])
        (fun c _ => renderTreeData_countP_zero db x.id md _ c 1 [x.id] (by simp))
      simp [hz]

/-- The self-referential node used to witness C4. -/
def selfNode : PropRec :=
  { id := 1, name := "1", text := "t", level := 1, sortOrder := 0, parentId := some 1 }

/-- Witness for C4: on the one-row table holding `selfNode`, the render
emits the node exactly once. -/
theorem claim_self_parent_rendered_once_witness :
    (renderTreeData [selfNode] (fuelFor [selfNode]) selfNode 0 none []).countP
      (fun e => e.2.id == selfNode.id) = 1 :=
  (claim_self_parent_rendered_once [selfNode] selfNode none
    (List.mem_singleton.mpr rfl) rfl).2.2

theorem sortedByKey_isEmpty_iff (ps : List PropRec) :
    (sortedByKey ps).isEmpty = true ↔ ps = [] := by
  rw [List.isEmpty_iff]
  constructor
  · intro h
    have hp := List.mergeSort_perm ps propLe
    rw [show ps.mergeSort propLe = sortedByKey ps from rfl, h] at hp
    exact (List.Perm.symm hp).eq_nil
  · intro h
    rw [h, sortedByKey, List.mergeSort_nil]

theorem listNodeResult_spec (db : List PropRec) (node : PropRec) :
    (listNodeResult db node).2 = some node ∧
    (ormChildren db node = [] → (listNodeResult db node).1 = ListResult.childrenOnly []) ∧
    (ormChildren db node ≠ [] →
      ∃ cs, (listNodeResult db node).1 = ListResult.full node cs ∧
        cs.Perm (ormChildren db node) ∧
        List.Pairwise (fun a b => propLe a b = true) cs) := by
  unfold listNodeResult
  by_cases he : (sortedByKey (ormChildren db node)).isEmpty = true
  · refine ⟨by simp [he], fun _ => by simp [he], fun hne => ?_⟩
    exact absurd ((sortedByKey_isEmpty_iff _).mp he) hne
  · refine ⟨by simp [he], fun hnil => ?_, fun _ => ?_⟩
    · exact absurd ((sortedByKey_isEmpty_iff _).mpr hnil) he
    · refine ⟨sortedByKey (ormChildren db node), by simp [he], ?_, ?_⟩
      · exact List.mergeSort_perm _ _
      · exact List.sorted_mergeSort propLe_trans propLe_total _

/-- The childless node used against the C6 claim. -/
def soloNode : PropRec :=
  { id := 1, name := "1", text := "t", level := 1, sortOrder := 0, parentId := none }

/-- C6 counterexample: selecting a childless node, `list` returns only
the empty children list — the dictionary does not carry the current
node, so the claim that the result still contains the current node
alongside an empty children list is false. -/
theorem claim_list_childless_counterexample :
    (listCmd [soloNode] none (some "1")).1 = ListResult.childrenOnly [] ∧
      (listCmd [soloNode] none (some "1")).1 ≠ ListResult.full soloNode [] := by
  have hfind : findByName [soloNode] "1" = some soloNode := rfl
  have hch : ormChildren [soloNode] soloNode = [] := by
    unfold ormChildren
    rw [show List.filter (fun c => c.parentId == some soloNode.id) [soloNode] = [] from rfl]
    exact List.mergeSort_nil
  have h1 : (listCmd [soloNode] none (some "1")).1 = ListResult.childrenOnly [] := by
    simp only [listCmd, hfind]
    exact (listNodeResult_spec [soloNode] soloNode).2.1 hch
  refine ⟨h1, ?_⟩
  rw [h1]
  intro hc
  cases hc

/-- C6 amended: for a node set as current (the given target or the
pre-existing current), `list` leaves that node as `current` and: when
the node has children, the result carries the current node together with
its children sorted by the natural sort key; when it has no children,
the result is only the empty children list, without the current node. -/
theorem claim_list_result_shape (db : List PropRec) (cur0 : Option PropRec)
    (target : Option String) (node : PropRec)
    (hres : (target = none ∧ cur0 = some node) ∨
            (∃ t, target = some t ∧ findByName db t = some node)) :
    (listCmd db cur0 target).2 = some node ∧
    (ormChildren db node = [] → (listCmd db cur0 target).1 = ListResult.childrenOnly []) ∧
    (ormChildren db node ≠ [] →
      ∃ cs, (listCmd db cur0 target).1 = ListResult.full node cs ∧
        cs.Perm (ormChildren db node) ∧
        List.Pairwise (fun a b => propLe a b = true) cs) := by
  obtain ⟨ht, hc⟩ | ⟨t, ht, hf⟩ := hres
  · subst ht
    subst hc
    simpa only [listCmd] using listNodeResult_spec db node
  · subst ht
    simpa only [listCmd, hf] using listNodeResult_spec db node

/-- The two-row table used to witness C6 and C7: `"1"` with child `"1.1"`. -/
def parentRow : PropRec :=
  { id := 1, name := "1", text := "a", level := 1, sortOrder := 0, parentId := none }

def childRow : PropRec :=
  { id := 2, name := "1.1", text := "b", level := 2, sortOrder := 1, parentId := some 1 }

/-- Witness for the amended C6: targeting `"1"` in the two-row table
sets `current` to the parent row. -/
theorem claim_list_result_shape_witness :
    (listCmd [parentRow, childRow] none (some "1")).2 = some parentRow :=
  (claim_list_result_shape [parentRow, childRow] none (some "1") parentRow
    (Or.inr ⟨"1", rfl, rfl⟩)).1

/-- C7: `next` and `previous` move by surrogate-id adjacency.  If a node
with id `current.id + 1` exists, `next()` then `previous()` returns
`current` to a node carrying the original surrogate id; and whenever the
adjacent id does not exist, the failing call leaves `current` unchanged
and returns a NotFound-class error result. -/
theorem claim_adjacent_id_roundtrip :
    (∀ (db : List PropRec) (cur n1 : PropRec), cur ∈ db →
      lookupId db (cur.id + 1) = some n1 →
      ∃ n2, (previousCmd db (nextCmd db (some cur)).2).2 = some n2 ∧ n2.id = cur.id) ∧
    (∀ (db : List PropRec) (cur : PropRec) (offset : Int),
      lookupId db (cur.id + offset) = none →
      (navigateAdjacent db (some cur) offset).2 = some cur ∧
      ∃ m, (navigateAdjacent db (some cur) offset).1 = NavResult.err m) := by
  constructor
  · intro db cur n1 hmem hnext
    have hn1 : n1.id = cur.id + 1 := by
      have hp := List.find?_some hnext
      simpa using hp
    have hstep1 : (nextCmd db (some cur)).2 = some n1 := by
      simp only [nextCmd, navigateAdjacent, hnext]
    rw [hstep1]
    have hsome : (lookupId db cur.id).isSome = true :=
      List.find?_isSome.mpr ⟨cur, hmem, by simp⟩
    obtain ⟨n2, hn2⟩ := Option.isSome_iff_exists.mp hsome
    have hn2id : n2.id = cur.id := by
      have hp := List.find?_some hn2
      simpa using hp
    refine ⟨n2, ?_, hn2id⟩
    have hprev : n1.id + (-1) = cur.id := by omega
    simp only [previousCmd, navigateAdjacent, hprev, hn2]
  · intro db cur offset hnone
    refine ⟨by simp [navigateAdjacent, hnone],
      if 0 < offset then "No next proposition." else "No previous proposition.", ?_⟩
    simp [navigateAdjacent, hnone]

/-- Witness for C7: from the row with id 1, `next` then `previous`
returns to a node with id 1 in the two-row table. -/
theorem claim_adjacent_id_roundtrip_witness :
    ∃ n2,
      (previousCmd [parentRow, childRow]
        (nextCmd [parentRow, childRow] (some parentRow)).2).2 = some n2 ∧
      n2.id = parentRow.id :=
  claim_adjacent_id_roundtrip.1 [parentRow, childRow] parentRow childRow
    (List.mem_cons_self _ _) rfl

/-- C10: the shipped default `tree_max_depth` is `0` and `tree` turns it
into no depth bound at all (`0 or None` is `None`); every other
validated preference value is strictly positive and is passed through as
the `max_depth` bound.  With no bound the renderer always descends into
the children of an unvisited node whatever its depth; with a bound
`m ≤ depth` the node is emitted but its children are not descended
into. -/
theorem claim_tree_depth_zero_unlimited :
    defaultTreeMaxDepth = 0 ∧
    treeMaxDepthArg defaultTreeMaxDepth = none ∧
    (∀ pref : Int, validTreeMaxDepth pref = true → pref ≠ 0 →
      0 < pref ∧ treeMaxDepthArg pref = some pref) ∧
    (∀ (db : List PropRec) (fuel : Nat) (node : PropRec) (depth : Nat) (visited : List Int),
      node.id ∉ visited →
      renderTreeData db (fuel + 1) node depth none visited =
        (depth, node) ::
          (sortedByKey (ormChildren db node)).flatMap
            (fun c => renderTreeData db fuel c (depth + 1) none (node.id :: visited))) ∧
    (∀ (db : List PropRec) (fuel : Nat) (node : PropRec) (depth : Nat) (visited : List Int)
        (m : Int), node.id ∉ visited → m ≤ (depth : Int) →
      renderTreeData db (fuel + 1) node depth (some m) visited = [(depth, node)]) := by
  refine ⟨rfl, rfl, ?_, ?_, ?_⟩
  · intro pref hv hne
    simp only [validTreeMaxDepth, Bool.and_eq_true, decide_eq_true_eq] at hv
    refine ⟨by omega, ?_⟩
    simp [treeMaxDepthArg, hne]
  · intro db fuel node depth visited hv
    simp only [renderTreeData]
    rw [if_neg hv]
    simp [depthCut]
  · intro db fuel node depth visited m hv hm
    simp only [renderTreeData]
    rw [if_neg hv]
    have hcut : depthCut (some m) depth = true := by simp [depthCut, hm]
    simp [hcut]

/-- Witness for C10: the validated preference value `5` is passed
through as the bound `5`. -/
theorem claim_tree_depth_zero_unlimited_witness :
    0 < (5 : Int) ∧ treeMaxDepthArg 5 = some 5 :=
  claim_tree_depth_zero_unlimited.2.2.1 5 (by decide) (by decide)

/-! ## Ingestion (`tractatus_orm/ingest.py`, `ingest_text`) -/

/-- A `Proposition` row as built by ingestion; `parentName` models the
`proposition.parent` object reference established in phase 2. -/
structure IngRow where
  name : String
  text : String
  level : Nat
  sortOrder : Nat
  parentName : Option String
deriving DecidableEq

inductive IngestError where
  | duplicateName
deriving DecidableEq

/-- `_find_parent_by_longest_prefix` on `String` names. -/
def findParentLongestS (n : String) (names : List String) : Option String :=
  (findParentLongest n.toList (names.map String.toList)).map (fun cs => String.mk cs)

/-- Embedding of `ingest_text`.  Phase 1 creates one row per entry with
placeholder level 1 and the entry position as `sort_order`, and calls
`session.add` on every row.  The `session.flush()` that follows is the
point where the `unique=True` constraint on `Proposition.name`
(`tractatus_orm/models.py`) rejects duplicate names among the added
rows, aborting the run before phase 2; it is modelled as the `Nodup`
test.  Phase 2 links each row to its longest-existing-prefix parent and
phase 3 recomputes the levels along the established parent chain (the
walk is run with `name.length + 1` fuel, which suffices because every
recorded parent is a strict prefix). -/
def ingestText (entries : List (String × String)) : Except IngestError (List IngRow) :=
  let rows := entries.enum.map (fun e =>
    { name := e.2.1, text := e.2.2, level := 1, sortOrder := e.1,
      parentName := none : IngRow })
  let names := rows.map (fun r => r.name)
  if names.Nodup then
    let pm : List (String × Option String) :=
      names.map (fun n => (n, findParentLongestS n names))
    let rows2 := rows.map (fun r => { r with parentName := findParentLongestS r.name names })
    let rows3 := rows2.map (fun r =>
      { r with level := (calcLevelFuel pm (r.name.length + 1) r.name 1).getD r.level })
    .ok rows3
  else .error .duplicateName

/-- C5: two entries sharing a name make ingestion fail with the
duplicate-name error before phase 2 begins — the run produces no
(partially linked) tree at all — and with pairwise distinct names no
such failure occurs, so no entry ever silently overwrites another. -/
theorem claim_duplicate_name_aborts (entries : List (String × String)) :
    (¬ (entries.map Prod.fst).Nodup → ingestText entries = .error .duplicateName) ∧
    ((entries.map Prod.fst).Nodup → ∃ rows, ingestText entries = .ok rows) := by
  have hnames :
      (entries.enum.map (fun e =>
        { name := e.2.1, text := e.2.2, level := 1, sortOrder := e.1,
          parentName := none : IngRow })).map (fun r => r.name) =
        entries.map Prod.fst := by
    rw [List.map_map]
    have hsnd : entries.enum.map
        ((fun r : IngRow => r.name) ∘ (fun e : Nat × String × String =>
          { name := e.2.1, text := e.2.2, level := 1, sortOrder := e.1,
            parentName := none : IngRow })) =
        entries.enum.map (Prod.fst ∘ Prod.snd) := rfl
    rw [hsnd, ← List.map_map, List.enum_map_snd]
  constructor
  · intro hdup
    simp only [ingestText]
    rw [hnames, if_neg hdup]
  · intro hok
    simp only [ingestText]
    rw [hnames, if_pos hok]
    exact ⟨_, rfl⟩

/-- Witness for C5: two entries both named `"1"` abort with the
duplicate-name error. -/
theorem claim_duplicate_name_aborts_witness :
    ingestText [("1", "a"), ("1", "b")] = .error .duplicateName :=
  (claim_duplicate_name_aborts [("1", "a"), ("1", "b")]).1 (by decide)
